import Mathlib

/-!
Verification of the bundle-deployment subsystem of the juju-gui charm.

The repository ships the protocol documentation of the Deployer
(`server/guiserver/bundles/__init__.py`) and the tests of the charm backend
(`tests/test_backends.py`); the bodies of `bundles/base.py` (Deployer) and of
`backend.py` (Backend) are not part of the sources, so both components are
modelled here from the specification and from the repository documentation
and tests, as executable Lean definitions.  The Deployer is embedded as an
explicit state machine: every client-visible operation is a pure function on
`DeployerState`, the worker steps are explicit transitions, and `Reachable`
closes the system under arbitrary interleavings of operations.
-/

set_option linter.unusedVariables false

namespace JujuGuiCharm

/-- Status of a bundle deployment: `scheduled`, `started` or `completed`. -/
inductive DStatus where
  | scheduled
  | started
  | completed
deriving DecidableEq

/-- One ChangeLog entry: deployment id, status, the queue position recorded
when the entry was appended (present for `scheduled`/`started` entries), and
the error recorded for a failed `completed` entry. -/
structure Change where
  deploymentId : Nat
  status : DStatus
  queuePos : Option Nat
  error : Option String
deriving DecidableEq

/-- A deployment job: id, client supplied bundle name, opaque payload,
current status, terminal error, and its append-only ChangeLog. -/
structure Deployment where
  id : Nat
  name : String
  payload : String
  status : DStatus
  error : Option String
  changelog : List Change
deriving DecidableEq

/-- A watcher handle: its id, the deployment it observes, the cursor into
that deployment's ChangeLog, and (as a ghost field used only to state
history properties) the list of all entries ever delivered to it by
cursor-advancing `next` calls. -/
structure Watcher where
  id : Nat
  deploymentId : Nat
  cursor : Nat
  observed : List Change
deriving DecidableEq

/-- The whole mutable state of one Deployer singleton: the id counters, the
known deployments (in id order), the FIFO of scheduled deployment ids, the
deployment currently being executed by the single worker, and the registered
watchers. -/
structure DeployerState where
  nextId : Nat
  deployments : List Deployment
  queue : List Nat
  current : Option Nat
  watchers : List Watcher
  nextWatcherId : Nat
deriving DecidableEq

/-- The state of a freshly bootstrapped Deployer: nothing known yet. -/
def initState : DeployerState :=
  { nextId := 0, deployments := [], queue := [], current := none,
    watchers := [], nextWatcherId := 0 }

/-- Queue position of a job enqueued right now: behind every queued job and
behind the currently executing one, if any. -/
def enqueuePos (s : DeployerState) : Nat :=
  s.queue.length + (if s.current.isSome then 1 else 0)

/-- The deployment record created by an import: status `scheduled`, no error,
and a ChangeLog holding the single initial `scheduled` entry carrying the
queue position at enqueue time. -/
def newDeployment (s : DeployerState) (name payload : String) : Deployment :=
  { id := s.nextId, name := name, payload := payload,
    status := DStatus.scheduled, error := none,
    changelog := [{ deploymentId := s.nextId, status := DStatus.scheduled,
                    queuePos := some (enqueuePos s), error := none }] }

/-- Modelled from the spec: `Deployer.import_bundle` of the missing
`bundles/base.py`.  Allocates the next deployment id, creates the deployment
with status `scheduled` and its initial `scheduled` Change, appends it to the
FIFO tail and returns the new id immediately. -/
def importBundle (s : DeployerState) (user name payload : String) :
    DeployerState × Nat :=
  ({ s with
      nextId := s.nextId + 1,
      deployments := s.deployments ++ [newDeployment s name payload],
      queue := s.queue ++ [s.nextId] }, s.nextId)

/-- Point update of the deployment with the given id. -/
def updateDep (i : Nat) (f : Deployment → Deployment)
    (l : List Deployment) : List Deployment :=
  l.map (fun d => if d.id = i then f d else d)

/-- Transition of a deployment to `started`, appending the `started` Change
with queue position 0. -/
def setStarted (d : Deployment) : Deployment :=
  { d with status := DStatus.started,
           changelog := d.changelog ++
             [{ deploymentId := d.id, status := DStatus.started,
                queuePos := some 0, error := none }] }

/-- Transition of a deployment to `completed`, recording the error of a
failed run and appending the terminal `completed` Change. -/
def setCompleted (err : Option String) (d : Deployment) : Deployment :=
  { d with status := DStatus.completed, error := err,
           changelog := d.changelog ++
             [{ deploymentId := d.id, status := DStatus.completed,
                queuePos := none, error := err }] }

/-- Modelled from the spec: the dequeue step of the single sequential worker
of the missing `bundles/base.py`.  When idle and the FIFO is non-empty it
pops the head, marks it `started` and makes it the current deployment;
otherwise no step is possible. -/
def workerStart (s : DeployerState) : Option DeployerState :=
  match s.current, s.queue with
  | none, i :: rest =>
      some { s with deployments := updateDep i setStarted s.deployments,
                    queue := rest, current := some i }
  | _, _ => none

/-- Modelled from the spec: the completion step of the single sequential
worker of the missing `bundles/base.py`.  When the blocking import call of
the current deployment returns (with `err = none` on success, or the error
of a failed or faulted run), the deployment becomes `completed` and the
worker becomes idle. -/
def workerComplete (s : DeployerState) (err : Option String) :
    Option DeployerState :=
  match s.current with
  | some i =>
      some { s with deployments := updateDep i (setCompleted err) s.deployments,
                    current := none }
  | none => none

/-- Modelled from the spec: `Deployer.watch` of the missing
`bundles/base.py`.  Fails with NotFound when the deployment id is unknown;
otherwise registers a fresh watcher bound to that deployment with cursor 0
and returns the watcher id. -/
def watch (s : DeployerState) (did : Nat) :
    Except String (DeployerState × Nat) :=
  if (s.deployments.find? (fun d => d.id == did)).isSome then
    Except.ok
      ({ s with
          watchers := s.watchers ++
            [{ id := s.nextWatcherId, deploymentId := did,
               cursor := 0, observed := [] }],
          nextWatcherId := s.nextWatcherId + 1 }, s.nextWatcherId)
  else
    Except.error "deployment not found"

/-- Result of a `next` call: unknown watcher, a suspension (no unseen entry
and the deployment is not terminal), or an immediate answer carrying the
successor state and the delivered entries. -/
inductive NextResult where
  | notFound
  | pending
  | changes (s : DeployerState) (cs : List Change)
deriving DecidableEq

/-- Advance the cursor of the given watcher and record what was delivered. -/
def advanceWatcher (s : DeployerState) (wid newCursor : Nat)
    (cs : List Change) : DeployerState :=
  { s with watchers := s.watchers.map (fun w =>
      if w.id = wid then
        { w with cursor := newCursor, observed := w.observed ++ cs }
      else w) }

/-- Modelled from the spec: `Deployer.next` of the missing
`bundles/base.py`.  Unknown watcher ids fail with NotFound.  When the bound
deployment has entries beyond the cursor they are all delivered and the
cursor advances past them; when the cursor is at the end of a `completed`
deployment's log the terminal Change alone is delivered again; otherwise the
call suspends. -/
def nextCall (s : DeployerState) (wid : Nat) : NextResult :=
  match s.watchers.find? (fun w => w.id == wid) with
  | none => NextResult.notFound
  | some w =>
    match s.deployments.find? (fun d => d.id == w.deploymentId) with
    | none => NextResult.notFound
    | some d =>
      if w.cursor < d.changelog.length then
        NextResult.changes
          (advanceWatcher s wid d.changelog.length (d.changelog.drop w.cursor))
          (d.changelog.drop w.cursor)
      else if d.status = DStatus.completed then
        match d.changelog.getLast? with
        | some c => NextResult.changes s [c]
        | none => NextResult.pending
      else NextResult.pending

/-- Position of a value in a list, counting from 0. -/
def posIn : List Nat → Nat → Option Nat
  | [], _ => none
  | a :: t, k => if a = k then some 0 else (posIn t k).map (· + 1)

/-- Modelled from the spec: the queue position reported to readers, always
recomputed from the live queue.  The executing deployment has position 0; a
queued deployment sits at its FIFO offset, shifted by one while the worker is
busy; completed deployments have no position. -/
def queuePosition (s : DeployerState) (did : Nat) : Option Nat :=
  if s.current = some did then some 0
  else
    match posIn s.queue did with
    | some idx => some (idx + (if s.current.isSome then 1 else 0))
    | none => none

/-- The number of deployments ahead of the given id (enqueued earlier) that
are still `scheduled` or `started`. -/
def countAhead (s : DeployerState) (did : Nat) : Nat :=
  (s.deployments.filter (fun e =>
      decide (e.id < did) &&
      (e.status == DStatus.scheduled || e.status == DStatus.started))).length

/-- The most recent Change of a deployment as reported to a reader, with the
queue position recomputed from the live state. -/
def renderChange (s : DeployerState) (d : Deployment) : Change :=
  match d.changelog.getLast? with
  | some c => { c with queuePos := queuePosition s d.id }
  | none => { deploymentId := d.id, status := d.status,
              queuePos := none, error := none }

/-- Modelled from the spec: the `Status` request of the missing
`bundles/views.py` and `bundles/base.py`.  A read-only snapshot: the most
recent Change of every known deployment, with live queue positions; the
state is returned untouched (the function is pure and yields no successor
state). -/
def statusCall (s : DeployerState) : List Change :=
  s.deployments.map (renderChange s)

/-- One transition of the whole system: any client request or worker step. -/
inductive Step : DeployerState → DeployerState → Prop where
  | importB (s : DeployerState) (user name payload : String) :
      Step s (importBundle s user name payload).1
  | workerS (s s' : DeployerState) :
      workerStart s = some s' → Step s s'
  | workerC (s s' : DeployerState) (err : Option String) :
      workerComplete s err = some s' → Step s s'
  | watchOk (s s' : DeployerState) (did wid : Nat) :
      watch s did = Except.ok (s', wid) → Step s s'
  | nextOk (s s' : DeployerState) (wid : Nat) (cs : List Change) :
      nextCall s wid = NextResult.changes s' cs → Step s s'

/-- The states of the Deployer reachable from bootstrap under any
interleaving of requests and worker steps. -/
inductive Reachable : DeployerState → Prop where
  | init : Reachable initState
  | step {s s' : DeployerState} : Reachable s → Step s s' → Reachable s'

/-- The canonical status history of a deployment in each state. -/
def statusTrace : DStatus → List DStatus
  | DStatus.scheduled => [DStatus.scheduled]
  | DStatus.started => [DStatus.scheduled, DStatus.started]
  | DStatus.completed => [DStatus.scheduled, DStatus.started, DStatus.completed]

/-- The full status sequence every deployment walks through. -/
def canonSeq : List DStatus :=
  [DStatus.scheduled, DStatus.started, DStatus.completed]

/-- Rank of a status in the lifecycle. -/
def statusRank : DStatus → Nat
  | DStatus.scheduled => 0
  | DStatus.started => 1
  | DStatus.completed => 2

/-- Whether a `next` call answered immediately. -/
def isImmediate : NextResult → Bool
  | NextResult.changes _ _ => true
  | _ => false

/-- The entries delivered by an immediate `next` answer. -/
def changesOf : NextResult → List Change
  | NextResult.changes _ cs => cs
  | _ => []

/-- The successor state of an immediate `next` answer. -/
def stateOf (dflt : DeployerState) : NextResult → DeployerState
  | NextResult.changes s _ => s
  | _ => dflt

/-- A placeholder deployment used only to read concrete scenario states. -/
def dfltDep : Deployment :=
  { id := 0, name := "", payload := "", status := DStatus.scheduled,
    error := none, changelog := [] }

/-- A placeholder watcher used only to read concrete scenario states. -/
def dfltW : Watcher := { id := 0, deploymentId := 0, cursor := 0, observed := [] }

/-- Scenario: one bundle imported. -/
def st1 : DeployerState := (importBundle initState "user" "mysql" "doc1").1

/-- Scenario: a second bundle imported behind the first. -/
def st2 : DeployerState := (importBundle st1 "user" "wordpress" "doc2").1

/-- Scenario: the worker picked up the first deployment. -/
def st3 : DeployerState := (workerStart st2).getD st2

/-- Scenario: the first deployment completed successfully. -/
def st4 : DeployerState := (workerComplete st3 none).getD st3

/-- Scenario: a watcher registered on the already completed deployment 0. -/
def stW : DeployerState :=
  match watch st4 0 with
  | Except.ok (s, _) => s
  | Except.error _ => st4

/-! ## The charm backend (`backend.py`, absent from the sources) -/

/-- The strategy mixins a Backend is assembled from. -/
inductive MixinName where
  | ImprovMixin
  | SandboxMixin
  | PythonMixin
  | GoMixin
  | GuiMixin
  | BuiltinServerMixin
  | HaproxyApacheMixin
deriving DecidableEq

/-- The configuration flags exercised by the backend tests. -/
structure BackendConfig where
  sandbox : Bool
  staging : Bool
  builtinServer : Bool
deriving DecidableEq

/-- A configuration key, as passed to `Backend.different`. -/
inductive ConfigKey where
  | sandbox
  | staging
  | builtinServer
deriving DecidableEq

/-- Value of a configuration key. -/
def getKey (c : BackendConfig) : ConfigKey → Bool
  | ConfigKey.sandbox => c.sandbox
  | ConfigKey.staging => c.staging
  | ConfigKey.builtinServer => c.builtinServer

/-- Modelled from the spec: the mixin selection of `Backend.__init__` in the
missing `backend.py`, reconstructed from `tests/test_backends.py`.  Under
legacy (pyjuju) environments the first mixin follows the staging/sandbox
flags; under juju-core (an agent file is present, as monkeypatched by
`test_go_backend`) it is GoMixin.  GuiMixin always follows, and the server
mixin is chosen by the builtin-server flag. -/
def selectMixins (legacy : Bool) (cfg : BackendConfig) : List MixinName :=
  (if legacy then
     (if cfg.staging then [MixinName.ImprovMixin]
      else if cfg.sandbox then [MixinName.SandboxMixin]
      else [MixinName.PythonMixin])
   else [MixinName.GoMixin])
  ++ [MixinName.GuiMixin]
  ++ (if cfg.builtinServer then [MixinName.BuiltinServerMixin]
      else [MixinName.HaproxyApacheMixin])

/-- Debian packages contributed by each mixin. -/
def mixinDebs : MixinName → List String
  | MixinName.ImprovMixin => ["zookeeper"]
  | MixinName.GoMixin => ["python-yaml"]
  | MixinName.GuiMixin => ["curl", "openssl"]
  | MixinName.HaproxyApacheMixin => ["apache2", "haproxy"]
  | _ => []

/-- Upstart scripts contributed by each mixin. -/
def mixinUpstartScripts : MixinName → List String
  | MixinName.HaproxyApacheMixin => ["haproxy.conf"]
  | _ => []

/-- Apt repositories contributed by each mixin. -/
def mixinRepositories : MixinName → List String
  | _ => []

/-- The debs collected over the selected mixins. -/
def backendDebs (legacy : Bool) (cfg : BackendConfig) : List String :=
  ((selectMixins legacy cfg).map mixinDebs).flatten

/-- The upstart scripts collected over the selected mixins. -/
def backendUpstartScripts (legacy : Bool) (cfg : BackendConfig) : List String :=
  ((selectMixins legacy cfg).map mixinUpstartScripts).flatten

/-- The repositories collected over the selected mixins. -/
def backendRepositories (legacy : Bool) (cfg : BackendConfig) : List String :=
  ((selectMixins legacy cfg).map mixinRepositories).flatten

/-- A constructed Backend: current config, previous config and the legacy
flag derived from the environment at construction time. -/
structure Backend where
  config : BackendConfig
  prevConfig : BackendConfig
  legacy : Bool
deriving DecidableEq

/-- The mixins of a constructed Backend. -/
def Backend.mixins (b : Backend) : List MixinName :=
  selectMixins b.legacy b.config

/-- Modelled from the spec: `Backend.different` of the missing `backend.py`,
reconstructed from `tests/test_backends.py`: whether the value of a key
differs between the current and the previous configuration. -/
def Backend.different (b : Backend) (k : ConfigKey) : Bool :=
  getKey b.config k != getKey b.prevConfig k

/-! ## The inductive invariant of the Deployer state machine -/

/-- The inductive invariant of the Deployer: deployment ids are exactly
`0, …, nextId-1` in order; the FIFO holds exactly the ids of the `scheduled`
deployments in id order; the worker holds exactly the `started` deployment
and was ahead of everything queued; every ChangeLog matches the canonical
trace of its deployment's status and carries the right ids and errors;
watcher ids are exactly `0, …, nextWatcherId-1`; watchers are bound to known
deployments, their cursors stay inside the log and their deliveries are
exactly the log up to the cursor. -/
structure Inv (s : DeployerState) : Prop where
  depIds : s.deployments.map (fun d => d.id) = List.range s.nextId
  qeq : s.queue =
    (s.deployments.filter (fun d => d.status == DStatus.scheduled)).map
      (fun d => d.id)
  curStarted : ∀ i, s.current = some i →
    ∃ d, d ∈ s.deployments ∧ d.id = i ∧ d.status = DStatus.started
  startedCur : ∀ d, d ∈ s.deployments → d.status = DStatus.started →
    s.current = some d.id
  curLtQ : ∀ i, s.current = some i → ∀ j, j ∈ s.queue → i < j
  logShape : ∀ d, d ∈ s.deployments →
    d.changelog.map (fun c => c.status) = statusTrace d.status
  logIds : ∀ d, d ∈ s.deployments → ∀ c, c ∈ d.changelog →
    c.deploymentId = d.id
  lastErr : ∀ d, d ∈ s.deployments → ∀ c, d.changelog.getLast? = some c →
    c.error = d.error
  errNone : ∀ d, d ∈ s.deployments → d.status ≠ DStatus.completed →
    d.error = none
  wIds : s.watchers.map (fun w => w.id) = List.range s.nextWatcherId
  wDep : ∀ w, w ∈ s.watchers → ∃ d, d ∈ s.deployments ∧ d.id = w.deploymentId
  wCur : ∀ w, w ∈ s.watchers → ∀ d, d ∈ s.deployments →
    d.id = w.deploymentId →
    w.cursor ≤ d.changelog.length ∧ w.observed = d.changelog.take w.cursor

theorem inv_init : Inv initState := by
  constructor <;> simp [initState]

theorem Inv.nodupIds {s : DeployerState} (h : Inv s) :
    (s.deployments.map (fun d => d.id)).Nodup := by
  rw [h.depIds]; exact List.nodup_range _

theorem Inv.idLt {s : DeployerState} (h : Inv s) {d : Deployment}
    (hd : d ∈ s.deployments) : d.id < s.nextId := by
  have hm : d.id ∈ s.deployments.map (fun d => d.id) :=
    List.mem_map_of_mem _ hd
  rw [h.depIds] at hm
  exact List.mem_range.mp hm

theorem Inv.idInj {s : DeployerState} (h : Inv s) {d d' : Deployment}
    (hd : d ∈ s.deployments) (hd' : d' ∈ s.deployments)
    (hid : d.id = d'.id) : d = d' :=
  List.inj_on_of_nodup_map h.nodupIds hd hd' hid

theorem Inv.nodupWIds {s : DeployerState} (h : Inv s) :
    (s.watchers.map (fun w => w.id)).Nodup := by
  rw [h.wIds]; exact List.nodup_range _

theorem Inv.wIdInj {s : DeployerState} (h : Inv s) {w w' : Watcher}
    (hw : w ∈ s.watchers) (hw' : w' ∈ s.watchers)
    (hid : w.id = w'.id) : w = w' :=
  List.inj_on_of_nodup_map h.nodupWIds hw hw' hid

theorem Inv.qmem {s : DeployerState} (h : Inv s) {j : Nat}
    (hj : j ∈ s.queue) :
    ∃ d, d ∈ s.deployments ∧ d.id = j ∧ d.status = DStatus.scheduled := by
  rw [h.qeq] at hj
  obtain ⟨d, hd, hdj⟩ := List.mem_map.mp hj
  have hflt := List.mem_filter.mp hd
  exact ⟨d, hflt.1, hdj, by simpa using hflt.2⟩

theorem Inv.schedq {s : DeployerState} (h : Inv s) {d : Deployment}
    (hd : d ∈ s.deployments) (hs : d.status = DStatus.scheduled) :
    d.id ∈ s.queue := by
  rw [h.qeq]
  exact List.mem_map_of_mem _ (List.mem_filter.mpr ⟨hd, by simp [hs]⟩)

theorem Inv.depsSorted {s : DeployerState} (h : Inv s) :
    List.Pairwise (fun a b => a < b) (s.deployments.map (fun d => d.id)) := by
  rw [h.depIds]; exact List.pairwise_lt_range _

theorem Inv.qSorted {s : DeployerState} (h : Inv s) :
    List.Pairwise (fun a b => a < b) s.queue := by
  rw [h.qeq]
  exact h.depsSorted.sublist ((List.filter_sublist _).map _)

/-! ## Anatomy of the operations -/

theorem workerStart_eq {s s' : DeployerState} (h : workerStart s = some s') :
    ∃ i rest, s.current = none ∧ s.queue = i :: rest ∧
      s' = { s with deployments := updateDep i setStarted s.deployments,
                    queue := rest, current := some i } := by
  cases hc : s.current with
  | some j => rw [workerStart, hc] at h; cases s.queue <;> cases h
  | none =>
    cases hq : s.queue with
    | nil => rw [workerStart, hc, hq] at h; cases h
    | cons i rest =>
      rw [workerStart, hc, hq] at h
      exact ⟨i, rest, rfl, rfl, (Option.some.injEq _ _ ▸ h).symm⟩

theorem workerComplete_eq {s s' : DeployerState} {err : Option String}
    (h : workerComplete s err = some s') :
    ∃ i, s.current = some i ∧
      s' = { s with
              deployments := updateDep i (setCompleted err) s.deployments,
              current := none } := by
  cases hc : s.current with
  | none => rw [workerComplete, hc] at h; cases h
  | some i =>
    rw [workerComplete, hc] at h
    exact ⟨i, rfl, (Option.some.injEq _ _ ▸ h).symm⟩

theorem watch_ok_eq {s s' : DeployerState} {did wid : Nat}
    (h : watch s did = Except.ok (s', wid)) :
    (∃ d, d ∈ s.deployments ∧ d.id = did) ∧ wid = s.nextWatcherId ∧
      s' = { s with
              watchers := s.watchers ++
                [{ id := s.nextWatcherId, deploymentId := did,
                   cursor := 0, observed := [] }],
              nextWatcherId := s.nextWatcherId + 1 } := by
  rw [watch] at h
  split at h
  case isTrue hf =>
    obtain ⟨d, hd⟩ := Option.isSome_iff_exists.mp hf
    have hmem := List.mem_of_find?_eq_some hd
    have hid : d.id = did := by simpa using List.find?_some hd
    injection h with hpair
    injection hpair with h1 h2
    exact ⟨⟨d, hmem, hid⟩, h2.symm, h1.symm⟩
  case isFalse => cases h

theorem watch_err_eq {s : DeployerState} {did : Nat}
    (h : ∀ d, d ∈ s.deployments → d.id ≠ did) :
    watch s did = Except.error "deployment not found" := by
  rw [watch]
  split
  case isTrue hf =>
    obtain ⟨d, hd⟩ := Option.isSome_iff_exists.mp hf
    have hid : d.id = did := by simpa using List.find?_some hd
    exact absurd hid (h d (List.mem_of_find?_eq_some hd))
  case isFalse => rfl

theorem nextCall_changes_eq {s s' : DeployerState} {wid : Nat}
    {cs : List Change} (h : nextCall s wid = NextResult.changes s' cs) :
    ∃ w, s.watchers.find? (fun w => w.id == wid) = some w ∧
      ∃ d, s.deployments.find? (fun d => d.id == w.deploymentId) = some d ∧
        ((w.cursor < d.changelog.length ∧ cs = d.changelog.drop w.cursor ∧
            s' = advanceWatcher s wid d.changelog.length
                   (d.changelog.drop w.cursor)) ∨
         (d.changelog.length ≤ w.cursor ∧ d.status = DStatus.completed ∧
            ∃ c, d.changelog.getLast? = some c ∧ cs = [c] ∧ s' = s)) := by
  rw [nextCall] at h
  split at h
  next hw => cases h
  next w hw =>
    split at h
    next hd => cases h
    next d hd =>
      refine ⟨w, hw, d, hd, ?_⟩
      split at h
      next hlt =>
        injection h with h1 h2
        exact Or.inl ⟨hlt, h2.symm, h1.symm⟩
      next hge =>
        split at h
        next hcomp =>
          split at h
          next c hl =>
            injection h with h1 h2
            exact Or.inr ⟨Nat.le_of_not_lt hge, hcomp, c, hl, h2.symm, h1.symm⟩
          next hl => cases h
        next => cases h

theorem nextCall_changes_frame {s s' : DeployerState} {wid : Nat}
    {cs : List Change} (h : nextCall s wid = NextResult.changes s' cs) :
    s'.deployments = s.deployments ∧ s'.queue = s.queue ∧
      s'.current = s.current ∧ s'.nextId = s.nextId ∧
      s'.nextWatcherId = s.nextWatcherId := by
  obtain ⟨w, _, d, _, hcase⟩ := nextCall_changes_eq h
  rcases hcase with ⟨_, _, rfl⟩ | ⟨_, _, c, _, _, rfl⟩
  · exact ⟨rfl, rfl, rfl, rfl, rfl⟩
  · exact ⟨rfl, rfl, rfl, rfl, rfl⟩

/-! ## Generic helpers about keyed lists -/

theorem find_key_of_mem {α : Type} (key : α → Nat) :
    ∀ (l : List α), ((l.map key).Nodup) → ∀ a, a ∈ l →
      l.find? (fun x => key x == key a) = some a := by
  intro l
  induction l with
  | nil => intro _ a ha; cases ha
  | cons b t ih =>
    intro hn a ha
    simp only [List.map_cons, List.nodup_cons] at hn
    rcases List.mem_cons.mp ha with rfl | hat
    · exact List.find?_cons_of_pos _ (by simp)
    · have hb : (key b == key a) = false := by
        simp only [beq_eq_false_iff_ne, ne_eq]
        intro he
        exact hn.1 (he ▸ List.mem_map_of_mem key hat)
      rw [List.find?_cons, hb]
      exact ih hn.2 a hat

theorem find_key_map_update {α : Type} (key : α → Nat) (u : α → α)
    (hu : ∀ x, key (u x) = key x) (k : Nat) :
    ∀ (l : List α),
      (l.map (fun x => if key x = k then u x else x)).find?
          (fun x => key x == k) =
        (l.find? (fun x => key x == k)).map u := by
  intro l
  induction l with
  | nil => rfl
  | cons b t ih =>
    by_cases hb : key b = k
    · rw [List.map_cons, if_pos hb,
        List.find?_cons_of_pos _ (by simp [hu, hb]),
        List.find?_cons_of_pos _ (by simp [hb])]
      rfl
    · rw [List.map_cons, if_neg hb,
        List.find?_cons_of_neg _ (by simp [hb]),
        List.find?_cons_of_neg _ (by simp [hb])]
      exact ih

theorem mem_updateDep {i : Nat} {f : Deployment → Deployment}
    {l : List Deployment} {d' : Deployment} (h : d' ∈ updateDep i f l) :
    ∃ d, d ∈ l ∧ d' = if d.id = i then f d else d := by
  obtain ⟨d, hd, he⟩ := List.mem_map.mp h
  exact ⟨d, hd, he.symm⟩

theorem updateDep_map_id (i : Nat) (f : Deployment → Deployment)
    (hf : ∀ d, (f d).id = d.id) (l : List Deployment) :
    (updateDep i f l).map (fun d => d.id) = l.map (fun d => d.id) := by
  rw [updateDep, List.map_map]
  apply List.map_congr_left
  intro d hd
  by_cases h : d.id = i <;> simp [h, hf]

theorem filter_sched_updateDep (i : Nat) (f : Deployment → Deployment)
    (hf : ∀ d, (f d).status ≠ DStatus.scheduled) (l : List Deployment) :
    (updateDep i f l).filter (fun d => d.status == DStatus.scheduled) =
      l.filter (fun d =>
        d.status == DStatus.scheduled && !(d.id == i)) := by
  induction l with
  | nil => rfl
  | cons d t ih =>
    rw [updateDep, List.map_cons, ← updateDep]
    by_cases hdi : d.id = i
    · rw [if_pos hdi, List.filter_cons, List.filter_cons,
        if_neg (by simp [hf (d)]), if_neg (by simp [hdi])]
      exact ih
    · rw [if_neg hdi, List.filter_cons, List.filter_cons]
      by_cases hs : d.status = DStatus.scheduled
      · rw [if_pos (by simp [hs]), if_pos (by simp [hs, hdi]), ih]
      · rw [if_neg (by simp [hs]), if_neg (by simp [hs]), ih]

/-! ## Preservation of the invariant -/

theorem inv_import {s : DeployerState} (h : Inv s)
    (user name payload : String) :
    Inv (importBundle s user name payload).1 := by
  refine ⟨?_, ?_, ?_, ?_, ?_, ?_, ?_, ?_, ?_, ?_, ?_, ?_⟩
  · simp only [importBundle, List.map_append, List.map_cons, List.map_nil,
      newDeployment, h.depIds, List.range_succ]
  · simp only [importBundle, List.filter_append, List.map_append]
    rw [← h.qeq]
    simp [newDeployment]
  · intro i hi
    obtain ⟨d, hd, hdi, hds⟩ := h.curStarted i hi
    exact ⟨d, List.mem_append_left _ hd, hdi, hds⟩
  · intro d hd hs
    rcases List.mem_append.mp hd with hold | hnew
    · exact h.startedCur d hold hs
    · simp only [List.mem_singleton] at hnew
      rw [hnew] at hs
      cases hs
  · intro i hi j hj
    rcases List.mem_append.mp hj with hold | hnew
    · exact h.curLtQ i hi j hold
    · simp only [List.mem_singleton] at hnew
      obtain ⟨d, hd, hdi, _⟩ := h.curStarted i hi
      rw [hnew, ← hdi]
      exact h.idLt hd
  · intro d hd
    rcases List.mem_append.mp hd with hold | hnew
    · exact h.logShape d hold
    · simp only [List.mem_singleton] at hnew
      rw [hnew]
      rfl
  · intro d hd c hc
    rcases List.mem_append.mp hd with hold | hnew
    · exact h.logIds d hold c hc
    · simp only [List.mem_singleton] at hnew
      rw [hnew] at hc ⊢
      simp only [newDeployment, List.mem_singleton] at hc
      rw [hc]
      rfl
  · intro d hd c hc
    rcases List.mem_append.mp hd with hold | hnew
    · exact h.lastErr d hold c hc
    · simp only [List.mem_singleton] at hnew
      rw [hnew] at hc ⊢
      simp only [newDeployment, List.getLast?_singleton,
        Option.some.injEq] at hc
      rw [← hc]
      rfl
  · intro d hd hne
    rcases List.mem_append.mp hd with hold | hnew
    · exact h.errNone d hold hne
    · simp only [List.mem_singleton] at hnew
      rw [hnew]
      rfl
  · exact h.wIds
  · intro w hw
    obtain ⟨d, hd, hdi⟩ := h.wDep w hw
    exact ⟨d, List.mem_append_left _ hd, hdi⟩
  · intro w hw d hd hdi
    rcases List.mem_append.mp hd with hold | hnew
    · exact h.wCur w hw d hold hdi
    · simp only [List.mem_singleton] at hnew
      obtain ⟨d', hd', hdi'⟩ := h.wDep w hw
      have : d'.id = d.id := by rw [hdi', ← hdi]
      rw [hnew] at this
      exact absurd this (Nat.ne_of_lt (h.idLt hd'))

theorem take_append_of_le {α : Type} {n : Nat} {l1 l2 : List α}
    (h : n ≤ l1.length) : (l1 ++ l2).take n = l1.take n := by
  rw [List.take_append_eq_append_take, Nat.sub_eq_zero_of_le h,
    List.take_zero, List.append_nil]

theorem qeq_workerStart {s : DeployerState} (h : Inv s) {i : Nat}
    {rest : List Nat} (hq : s.queue = i :: rest) :
    ((updateDep i setStarted s.deployments).filter
        (fun d => d.status == DStatus.scheduled)).map (fun d => d.id) =
      rest := by
  have hpw : List.Pairwise (fun a b => a < b) (i :: rest) := by
    rw [← hq]; exact h.qSorted
  have hilt : ∀ j, j ∈ rest → i < j := (List.pairwise_cons.mp hpw).1
  rw [filter_sched_updateDep i setStarted (fun d hcon => nomatch hcon)]
  have h2 : (s.deployments.filter (fun d =>
        d.status == DStatus.scheduled && !(d.id == i))) =
      (s.deployments.filter (fun d => d.status == DStatus.scheduled)).filter
        (fun d => !(d.id == i)) := by
    rw [List.filter_filter]
    apply List.filter_congr
    intro d hd
    exact Bool.and_comm _ _
  rw [h2]
  have h3 : ((s.deployments.filter
        (fun d => d.status == DStatus.scheduled)).filter
          (fun d => !(d.id == i))).map (fun d => d.id) =
      ((s.deployments.filter
        (fun d => d.status == DStatus.scheduled)).map
          (fun d => d.id)).filter (fun j => !(j == i)) := by
    rw [List.filter_map]
    rfl
  rw [h3, ← h.qeq, hq, List.filter_cons]
  rw [if_neg (by simp)]
  apply List.filter_eq_self.mpr
  intro j hj
  simp only [Bool.not_eq_eq_eq_not, Bool.not_true, beq_eq_false_iff_ne, ne_eq]
  exact fun he => absurd (he ▸ hilt j hj) (Nat.lt_irrefl i)

theorem qeq_workerComplete {s : DeployerState} (h : Inv s) {i : Nat}
    {err : Option String} (hcur : s.current = some i) :
    (updateDep i (setCompleted err) s.deployments).filter
        (fun d => d.status == DStatus.scheduled) =
      s.deployments.filter (fun d => d.status == DStatus.scheduled) := by
  rw [filter_sched_updateDep i (setCompleted err) (fun d hcon => nomatch hcon)]
  apply List.filter_congr
  intro d hd
  by_cases hs : d.status = DStatus.scheduled
  · have hne : d.id ≠ i := by
      intro he
      obtain ⟨di, hdi, hdii, hdis⟩ := h.curStarted i hcur
      have hde : d = di := h.idInj hd hdi (he.trans hdii.symm)
      rw [hde, hdis] at hs
      cases hs
    simp [hs, hne]
  · simp [hs]

theorem inv_workerStart {s s' : DeployerState} (h : Inv s)
    (hs : workerStart s = some s') : Inv s' := by
  obtain ⟨i, rest, hcur, hq, rfl⟩ := workerStart_eq hs
  obtain ⟨dh, hdh, hdhi, hdhs⟩ :=
    h.qmem (j := i) (by rw [hq]; exact List.mem_cons_self i rest)
  have hpw : List.Pairwise (fun a b => a < b) (i :: rest) := by
    rw [← hq]; exact h.qSorted
  have hilt : ∀ j, j ∈ rest → i < j := (List.pairwise_cons.mp hpw).1
  refine ⟨?_, ?_, ?_, ?_, ?_, ?_, ?_, ?_, ?_, ?_, ?_, ?_⟩
  · show (updateDep i setStarted s.deployments).map (fun d => d.id) =
      List.range s.nextId
    rw [updateDep_map_id i setStarted (fun d => rfl), h.depIds]
  · exact (qeq_workerStart h hq).symm
  · intro j hj
    injection hj with hj
    refine ⟨setStarted dh, ?_, hj ▸ hdhi, rfl⟩
    have hm : setStarted dh ∈ updateDep i setStarted s.deployments :=
      List.mem_map.mpr ⟨dh, hdh, by simp [hdhi]⟩
    exact hm
  · intro d' hd' hs'
    obtain ⟨d, hd, he⟩ := mem_updateDep hd'
    by_cases hdi : d.id = i
    · rw [if_pos hdi] at he
      show some i = some d'.id
      rw [he]
      show some i = some d.id
      rw [hdi]
    · rw [if_neg hdi] at he
      rw [he] at hs'
      have := h.startedCur d hd hs'
      rw [hcur] at this
      cases this
  · intro j hj k hk
    injection hj with hj
    rw [← hj]
    exact hilt k hk
  · intro d' hd'
    obtain ⟨d, hd, he⟩ := mem_updateDep hd'
    by_cases hdi : d.id = i
    · have hde : d = dh := h.idInj hd hdh (hdi.trans hdhi.symm)
      rw [if_pos hdi, hde] at he
      rw [he]
      show (dh.changelog ++ _).map (fun c => c.status) = _
      rw [List.map_append, h.logShape dh hdh, hdhs]
      rfl
    · rw [if_neg hdi] at he
      rw [he]
      exact h.logShape d hd
  · intro d' hd' c hc
    obtain ⟨d, hd, he⟩ := mem_updateDep hd'
    by_cases hdi : d.id = i
    · rw [if_pos hdi] at he
      rw [he] at hc ⊢
      rcases List.mem_append.mp hc with hold | hnew
      · exact h.logIds d hd c hold
      · simp only [List.mem_singleton] at hnew
        rw [hnew]
        rfl
    · rw [if_neg hdi] at he
      rw [he] at hc ⊢
      exact h.logIds d hd c hc
  · intro d' hd' c hc
    obtain ⟨d, hd, he⟩ := mem_updateDep hd'
    by_cases hdi : d.id = i
    · have hde : d = dh := h.idInj hd hdh (hdi.trans hdhi.symm)
      rw [if_pos hdi, hde] at he
      rw [he] at hc ⊢
      rw [show (setStarted dh).changelog = dh.changelog ++
            [{ deploymentId := dh.id, status := DStatus.started,
               queuePos := some 0, error := none }] from rfl,
        List.getLast?_concat] at hc
      injection hc with hc
      rw [← hc]
      show (none : Option String) = (setStarted dh).error
      rw [show (setStarted dh).error = dh.error from rfl,
        h.errNone dh hdh (by rw [hdhs]; exact fun hcon => nomatch hcon)]
    · rw [if_neg hdi] at he
      rw [he] at hc ⊢
      exact h.lastErr d hd c hc
  · intro d' hd' hne
    obtain ⟨d, hd, he⟩ := mem_updateDep hd'
    by_cases hdi : d.id = i
    · have hde : d = dh := h.idInj hd hdh (hdi.trans hdhi.symm)
      rw [if_pos hdi, hde] at he
      rw [he]
      show dh.error = none
      exact h.errNone dh hdh (by rw [hdhs]; exact fun hcon => nomatch hcon)
    · rw [if_neg hdi] at he
      rw [he]
      exact h.errNone d hd (he ▸ hne)
  · exact h.wIds
  · intro w hw
    obtain ⟨d, hd, hdi'⟩ := h.wDep w hw
    refine ⟨if d.id = i then setStarted d else d, List.mem_map_of_mem _ hd, ?_⟩
    by_cases hdi : d.id = i
    · rw [if_pos hdi]
      exact hdi'
    · rw [if_neg hdi]
      exact hdi'
  · intro w hw d' hd' hdi'
    obtain ⟨d, hd, he⟩ := mem_updateDep hd'
    by_cases hdi : d.id = i
    · rw [if_pos hdi] at he
      have hid : d.id = w.deploymentId := by
        rw [← hdi']
        rw [he]
        rfl
      obtain ⟨hc, ho⟩ := h.wCur w hw d hd hid
      constructor
      · rw [he]
        show w.cursor ≤ (d.changelog ++ _).length
        rw [List.length_append]
        exact Nat.le_trans hc (Nat.le_add_right _ _)
      · rw [he]
        show w.observed = (d.changelog ++ _).take w.cursor
        rw [take_append_of_le hc]
        exact ho
    · rw [if_neg hdi] at he
      rw [he] at hdi' ⊢
      exact h.wCur w hw d hd hdi'

theorem inv_workerComplete {s s' : DeployerState} {err : Option String}
    (h : Inv s) (hs : workerComplete s err = some s') : Inv s' := by
  obtain ⟨i, hcur, rfl⟩ := workerComplete_eq hs
  obtain ⟨di, hdi, hdii, hdis⟩ := h.curStarted i hcur
  refine ⟨?_, ?_, ?_, ?_, ?_, ?_, ?_, ?_, ?_, ?_, ?_, ?_⟩
  · show (updateDep i (setCompleted err) s.deployments).map (fun d => d.id) =
      List.range s.nextId
    rw [updateDep_map_id i (setCompleted err) (fun d => rfl), h.depIds]
  · show s.queue = _
    rw [qeq_workerComplete h hcur]
    exact h.qeq
  · intro j hj
    cases hj
  · intro d' hd' hs'
    obtain ⟨d, hd, he⟩ := mem_updateDep hd'
    by_cases hdi' : d.id = i
    · rw [if_pos hdi'] at he
      rw [he] at hs'
      cases hs'
    · rw [if_neg hdi'] at he
      rw [he] at hs'
      have := h.startedCur d hd hs'
      rw [hcur] at this
      injection this with this
      exact absurd this.symm hdi'
  · intro j hj
    cases hj
  · intro d' hd'
    obtain ⟨d, hd, he⟩ := mem_updateDep hd'
    by_cases hdi' : d.id = i
    · have hde : d = di := h.idInj hd hdi (hdi'.trans hdii.symm)
      rw [if_pos hdi', hde] at he
      rw [he]
      show (di.changelog ++ _).map (fun c => c.status) = _
      rw [List.map_append, h.logShape di hdi, hdis]
      rfl
    · rw [if_neg hdi'] at he
      rw [he]
      exact h.logShape d hd
  · intro d' hd' c hc
    obtain ⟨d, hd, he⟩ := mem_updateDep hd'
    by_cases hdi' : d.id = i
    · rw [if_pos hdi'] at he
      rw [he] at hc ⊢
      rcases List.mem_append.mp hc with hold | hnew
      · exact h.logIds d hd c hold
      · simp only [List.mem_singleton] at hnew
        rw [hnew]
        rfl
    · rw [if_neg hdi'] at he
      rw [he] at hc ⊢
      exact h.logIds d hd c hc
  · intro d' hd' c hc
    obtain ⟨d, hd, he⟩ := mem_updateDep hd'
    by_cases hdi' : d.id = i
    · rw [if_pos hdi'] at he
      rw [he] at hc ⊢
      rw [show (setCompleted err d).changelog = d.changelog ++
            [{ deploymentId := d.id, status := DStatus.completed,
               queuePos := none, error := err }] from rfl,
        List.getLast?_concat] at hc
      injection hc with hc
      rw [← hc]
      rfl
    · rw [if_neg hdi'] at he
      rw [he] at hc ⊢
      exact h.lastErr d hd c hc
  · intro d' hd' hne
    obtain ⟨d, hd, he⟩ := mem_updateDep hd'
    by_cases hdi' : d.id = i
    · rw [if_pos hdi'] at he
      rw [he] at hne
      exact absurd rfl hne
    · rw [if_neg hdi'] at he
      rw [he]
      exact h.errNone d hd (he ▸ hne)
  · exact h.wIds
  · intro w hw
    obtain ⟨d, hd, hdi'⟩ := h.wDep w hw
    refine ⟨if d.id = i then setCompleted err d else d,
      List.mem_map_of_mem _ hd, ?_⟩
    by_cases hdc : d.id = i
    · rw [if_pos hdc]
      exact hdi'
    · rw [if_neg hdc]
      exact hdi'
  · intro w hw d' hd' hdi'
    obtain ⟨d, hd, he⟩ := mem_updateDep hd'
    by_cases hdc : d.id = i
    · rw [if_pos hdc] at he
      have hid : d.id = w.deploymentId := by
        rw [← hdi', he]
        rfl
      obtain ⟨hc, ho⟩ := h.wCur w hw d hd hid
      constructor
      · rw [he]
        show w.cursor ≤ (d.changelog ++ _).length
        rw [List.length_append]
        exact Nat.le_trans hc (Nat.le_add_right _ _)
      · rw [he]
        show w.observed = (d.changelog ++ _).take w.cursor
        rw [take_append_of_le hc]
        exact ho
    · rw [if_neg hdc] at he
      rw [he] at hdi' ⊢
      exact h.wCur w hw d hd hdi'

theorem inv_watch {s s' : DeployerState} {did wid : Nat} (h : Inv s)
    (hs : watch s did = Except.ok (s', wid)) : Inv s' := by
  obtain ⟨⟨d0, hd0, hd0i⟩, hwid, rfl⟩ := watch_ok_eq hs
  refine ⟨h.depIds, h.qeq, h.curStarted, h.startedCur, h.curLtQ, h.logShape,
    h.logIds, h.lastErr, h.errNone, ?_, ?_, ?_⟩
  · show (s.watchers ++ _).map (fun w => w.id) =
      List.range (s.nextWatcherId + 1)
    rw [List.map_append, h.wIds, List.range_succ]
    rfl
  · intro w hw
    rcases List.mem_append.mp hw with hold | hnew
    · exact h.wDep w hold
    · simp only [List.mem_singleton] at hnew
      rw [hnew]
      exact ⟨d0, hd0, hd0i⟩
  · intro w hw d hd hdi
    rcases List.mem_append.mp hw with hold | hnew
    · exact h.wCur w hold d hd hdi
    · simp only [List.mem_singleton] at hnew
      rw [hnew]
      exact ⟨Nat.zero_le _, rfl⟩

theorem inv_next {s s' : DeployerState} {wid : Nat} {cs : List Change}
    (h : Inv s) (hs : nextCall s wid = NextResult.changes s' cs) :
    Inv s' := by
  obtain ⟨w, hw, d, hd, hcase⟩ := nextCall_changes_eq hs
  have hwmem := List.mem_of_find?_eq_some hw
  have hwid : w.id = wid := by simpa using List.find?_some hw
  have hdmem := List.mem_of_find?_eq_some hd
  have hdid : d.id = w.deploymentId := by simpa using List.find?_some hd
  rcases hcase with ⟨hlt, hcs, rfl⟩ | ⟨hge, hcomp, c, hlast, hcseq, rfl⟩
  · refine ⟨h.depIds, h.qeq, h.curStarted, h.startedCur, h.curLtQ,
      h.logShape, h.logIds, h.lastErr, h.errNone, ?_, ?_, ?_⟩
    · show ((s.watchers.map (fun w0 =>
          if w0.id = wid then
            { w0 with cursor := d.changelog.length,
                      observed := w0.observed ++ d.changelog.drop w.cursor }
          else w0)).map (fun w0 => w0.id)) = List.range s.nextWatcherId
      rw [List.map_map, ← h.wIds]
      apply List.map_congr_left
      intro x hx
      by_cases hxx : x.id = wid <;> simp [hxx]
    · intro w' hw'
      obtain ⟨w0, hw0, he⟩ := List.mem_map.mp hw'
      obtain ⟨d1, hd1, hd1i⟩ := h.wDep w0 hw0
      refine ⟨d1, hd1, ?_⟩
      rw [← he]
      by_cases hxx : w0.id = wid <;> simp [hxx, hd1i]
    · intro w' hw' d' hd' hdi'
      obtain ⟨w0, hw0, he⟩ := List.mem_map.mp hw'
      by_cases hx : w0.id = wid
      · have hw0w : w0 = w := h.wIdInj hw0 hwmem (hx.trans hwid.symm)
        rw [if_pos hx, hw0w] at he
        have hdd : d' = d := by
          apply h.idInj hd' hdmem
          rw [hdi', ← he]
          exact hdid.symm
        obtain ⟨hc, ho⟩ := h.wCur w hwmem d hdmem hdid
        rw [← he, hdd]
        constructor
        · exact Nat.le_refl _
        · show w.observed ++ d.changelog.drop w.cursor =
            d.changelog.take d.changelog.length
          rw [List.take_length, ho, List.take_append_drop]
      · rw [if_neg hx] at he
        rw [← he] at hdi' ⊢
        exact h.wCur w0 hw0 d' hd' hdi'
  · exact h

theorem inv_step {s s' : DeployerState} (h : Inv s) (st : Step s s') :
    Inv s' := by
  cases st with
  | importB user name payload => exact inv_import h user name payload
  | workerS s' hw => exact inv_workerStart h hw
  | workerC s' err hw => exact inv_workerComplete h hw
  | watchOk s' did wid hw => exact inv_watch h hw
  | nextOk s' wid cs hw => exact inv_next h hw

theorem reachable_inv {s : DeployerState} (h : Reachable s) : Inv s := by
  induction h with
  | init => exact inv_init
  | step hr hs ih => exact inv_step ih hs

/-! ## Supporting lemmas for the claims -/

theorem statusTrace_eq_take (st : DStatus) :
    statusTrace st = canonSeq.take (statusRank st + 1) := by
  cases st <;> rfl

theorem length_le_one_of_const_key {α : Type} (key : α → Nat) (k : Nat) :
    ∀ (l : List α), (l.map key).Nodup → (∀ x, x ∈ l → key x = k) →
      l.length ≤ 1 := by
  intro l
  match l with
  | [] => intro _ _; exact Nat.zero_le 1
  | [a] => intro _ _; exact Nat.le_refl 1
  | a :: b :: t =>
    intro hn hk
    simp only [List.map_cons, List.nodup_cons] at hn
    exfalso
    apply hn.1
    rw [hk a (List.mem_cons_self a _),
      ← hk b (List.mem_cons_of_mem a (List.mem_cons_self b t))]
    exact List.mem_map_of_mem key (List.mem_cons_self b t)

theorem getLast?_drop_of_lt {α : Type} (l : List α) (n : Nat)
    (h : n < l.length) : (l.drop n).getLast? = l.getLast? := by
  have hne : l.drop n ≠ [] := by
    intro h0
    rw [List.drop_eq_nil_iff] at h0
    omega
  cases hl : (l.drop n).getLast? with
  | none => exact absurd (List.getLast?_eq_none_iff.mp hl) hne
  | some c =>
    conv_rhs => rw [← List.take_append_drop n l]
    rw [List.getLast?_append, hl]
    rfl

theorem posIn_sorted : ∀ (q : List Nat),
    List.Pairwise (fun a b => a < b) q → ∀ k, k ∈ q →
      posIn q k = some (q.countP (fun x => decide (x < k))) := by
  intro q
  induction q with
  | nil => intro _ k hk; cases hk
  | cons a t ih =>
    intro hpw k hk
    have hlt : ∀ j, j ∈ t → a < j := (List.pairwise_cons.mp hpw).1
    rcases List.mem_cons.mp hk with he | hkt
    · rw [he, posIn, if_pos rfl, List.countP_cons]
      have h1 : (decide (a < a)) = false := by simp
      have h2 : t.countP (fun x => decide (x < a)) = 0 := by
        rw [List.countP_eq_zero]
        intro j hj
        simp only [decide_eq_true_eq]
        exact fun hc => absurd (hlt j hj) (Nat.lt_asymm hc)
      rw [h1, h2]
      rfl
    · have hak : a < k := hlt k hkt
      rw [posIn, if_neg (Nat.ne_of_lt hak),
        ih (List.pairwise_cons.mp hpw).2 k hkt, List.countP_cons,
        if_pos (by simpa using hak)]
      rfl

theorem posIn_eq_none : ∀ (q : List Nat) (k : Nat), k ∉ q →
    posIn q k = none := by
  intro q
  induction q with
  | nil => intro k _; rfl
  | cons a t ih =>
    intro k hk
    have hne : a ≠ k := fun he => hk (he ▸ List.mem_cons_self a t)
    rw [posIn, if_neg hne, ih k (fun hm => hk (List.mem_cons_of_mem a hm))]
    rfl

theorem countP_disjoint {α : Type} (p q : α → Bool) :
    ∀ (l : List α), (∀ a, a ∈ l → ¬(p a = true ∧ q a = true)) →
      l.countP (fun a => p a || q a) = l.countP p + l.countP q := by
  intro l
  induction l with
  | nil => intro _; rfl
  | cons a t ih =>
    intro hd
    rw [List.countP_cons, List.countP_cons, List.countP_cons,
      ih (fun x hx => hd x (List.mem_cons_of_mem a hx))]
    have := hd a (List.mem_cons_self a t)
    cases hp : p a <;> cases hq : q a <;> simp [hp, hq] at this ⊢ <;> omega

theorem completed_of_mem_trace {s : DeployerState} (h : Inv s)
    {d : Deployment} (hd : d ∈ s.deployments)
    (hm : DStatus.completed ∈ d.changelog.map (fun c => c.status)) :
    d.status = DStatus.completed := by
  cases hst : d.status with
  | scheduled =>
    rw [h.logShape d hd, hst] at hm
    simp [statusTrace] at hm
  | started =>
    rw [h.logShape d hd, hst] at hm
    simp [statusTrace] at hm
  | completed => rfl

theorem log_nonempty {s : DeployerState} (h : Inv s) {d : Deployment}
    (hd : d ∈ s.deployments) : d.changelog ≠ [] := by
  intro h0
  have := h.logShape d hd
  rw [h0] at this
  cases hst : d.status <;> rw [hst] at this <;> cases this

/-! ## The claims -/

/-- Claim C1: at any reachable instant, at most one deployment is
`started` (the single sequential worker processes one at a time), and every
deployment that is not `started` is either `scheduled` and still in the FIFO
queue, or `completed`. -/
theorem started_at_most_one (s : DeployerState) (hr : Reachable s) :
    (s.deployments.filter (fun d => d.status == DStatus.started)).length ≤ 1 ∧
    ∀ d, d ∈ s.deployments →
      (d.status = DStatus.scheduled ∧ d.id ∈ s.queue) ∨
      d.status = DStatus.started ∨ d.status = DStatus.completed := by
  have h := reachable_inv hr
  constructor
  · cases hcur : s.current with
    | none =>
      have hnil :
          s.deployments.filter (fun d => d.status == DStatus.started) = [] := by
        rw [List.filter_eq_nil_iff]
        intro d hd hds
        have := h.startedCur d hd (by simpa using hds)
        rw [hcur] at this
        cases this
      rw [hnil]
      exact Nat.zero_le 1
    | some i =>
      apply length_le_one_of_const_key (fun d => d.id) i
      · exact h.nodupIds.sublist ((List.filter_sublist _).map _)
      · intro x hx
        have hx' := List.mem_filter.mp hx
        have := h.startedCur x hx'.1 (by simpa using hx'.2)
        rw [hcur] at this
        injection this with this
        exact this.symm
  · intro d hd
    cases hst : d.status with
    | scheduled => exact Or.inl ⟨rfl, h.schedq hd hst⟩
    | started => exact Or.inr (Or.inl rfl)
    | completed => exact Or.inr (Or.inr rfl)

/-- Claim C1 witness: instantiated at the concrete reachable state `st3`,
where deployment 0 is `started` and deployment 1 is `scheduled`. -/
theorem started_at_most_one_witness :
    (st3.deployments.filter
      (fun d => d.status == DStatus.started)).length ≤ 1 :=
  (started_at_most_one st3
    (Reachable.step
      (Reachable.step
        (Reachable.step Reachable.init
          (Step.importB initState "user" "mysql" "doc1"))
        (Step.importB st1 "user" "wordpress" "doc2"))
      (Step.workerS st2 st3 rfl))).1

/-- Claim C2: at every reachable instant the status sequence of every
deployment's ChangeLog is a prefix of `scheduled, started, completed`
(stated as: it equals the canonical sequence truncated after the current
status); `completed` occurs at most once and only as the last entry; and
once a `completed` entry has been appended, no step of the system ever
changes that ChangeLog again. -/
theorem changelog_trace (s : DeployerState) (hr : Reachable s) :
    (∀ d, d ∈ s.deployments →
       d.changelog.map (fun c => c.status) =
         canonSeq.take (statusRank d.status + 1)) ∧
    (∀ d, d ∈ s.deployments →
       (d.changelog.map (fun c => c.status)).count DStatus.completed ≤ 1 ∧
       (DStatus.completed ∈ d.changelog.map (fun c => c.status) →
         (d.changelog.map (fun c => c.status)).getLast? =
           some DStatus.completed)) ∧
    (∀ s', Step s s' → ∀ d, d ∈ s.deployments →
       DStatus.completed ∈ d.changelog.map (fun c => c.status) →
       ∃ d', d' ∈ s'.deployments ∧ d'.id = d.id ∧
         d'.changelog = d.changelog) := by
  have h := reachable_inv hr
  refine ⟨?_, ?_, ?_⟩
  · intro d hd
    rw [h.logShape d hd, statusTrace_eq_take]
  · intro d hd
    rw [h.logShape d hd]
    cases d.status <;> exact ⟨by decide, by decide⟩
  · intro s' hstep d hd hm
    have hcomp := completed_of_mem_trace h hd hm
    cases hstep with
    | importB user name payload =>
      exact ⟨d, List.mem_append_left _ hd, rfl, rfl⟩
    | workerS s' hws =>
      obtain ⟨i, rest, hcur, hq, rfl⟩ := workerStart_eq hws
      obtain ⟨dh, hdh, hdhi, hdhs⟩ :=
        h.qmem (j := i) (by rw [hq]; exact List.mem_cons_self i rest)
      have hne : d.id ≠ i := by
        intro he
        have : d = dh := h.idInj hd hdh (he.trans hdhi.symm)
        rw [this, hdhs] at hcomp
        cases hcomp
      exact ⟨d, List.mem_map.mpr ⟨d, hd, by rw [if_neg hne]⟩, rfl, rfl⟩
    | workerC s' err hwc =>
      obtain ⟨i, hcur, rfl⟩ := workerComplete_eq hwc
      obtain ⟨di, hdi, hdii, hdis⟩ := h.curStarted i hcur
      have hne : d.id ≠ i := by
        intro he
        have : d = di := h.idInj hd hdi (he.trans hdii.symm)
        rw [this, hdis] at hcomp
        cases hcomp
      exact ⟨d, List.mem_map.mpr ⟨d, hd, by rw [if_neg hne]⟩, rfl, rfl⟩
    | watchOk s' did wid hwo =>
      obtain ⟨_, _, rfl⟩ := watch_ok_eq hwo
      exact ⟨d, hd, rfl, rfl⟩
    | nextOk s' wid cs hno =>
      refine ⟨d, ?_, rfl, rfl⟩
      rw [(nextCall_changes_frame hno).1]
      exact hd

/-- Claim C2 witness: instantiated at the concrete reachable state `st4`,
where deployment 0 has the full `scheduled, started, completed` history. -/
theorem changelog_trace_witness :
    (st4.deployments.getD 0 dfltDep).changelog.map (fun c => c.status) =
      canonSeq.take
        (statusRank (st4.deployments.getD 0 dfltDep).status + 1) :=
  (changelog_trace st4
    (Reachable.step
      (Reachable.step
        (Reachable.step
          (Reachable.step Reachable.init
            (Step.importB initState "user" "mysql" "doc1"))
          (Step.importB st1 "user" "wordpress" "doc2"))
        (Step.workerS st2 st3 rfl))
      (Step.workerC st3 st4 none rfl))).1
    (st4.deployments.getD 0 dfltDep) (by decide)

/-- Claim C3: `import_bundle` returns the current id counter and bumps it;
the new deployment carries the returned id at the tail of the id list; no
step of the system ever decreases the counter; and in every reachable state
the deployment ids are strictly increasing with every existing id below the
counter.  Together these give that ids returned by successive
`import_bundle` calls are strictly increasing, pairwise unique and never
reused. -/
theorem import_ids_increasing :
    (∀ (s : DeployerState) (user name payload : String),
       (importBundle s user name payload).2 = s.nextId ∧
       (importBundle s user name payload).1.nextId = s.nextId + 1 ∧
       (importBundle s user name payload).1.deployments.map (fun d => d.id) =
         s.deployments.map (fun d => d.id) ++ [s.nextId]) ∧
    (∀ s s', Step s s' → s.nextId ≤ s'.nextId) ∧
    (∀ s, Reachable s →
       List.Pairwise (fun a b => a < b)
         (s.deployments.map (fun d => d.id)) ∧
       ∀ d, d ∈ s.deployments → d.id < s.nextId) := by
  refine ⟨?_, ?_, ?_⟩
  · intro s user name payload
    exact ⟨rfl, rfl, by simp [importBundle, newDeployment]⟩
  · intro s s' hstep
    cases hstep with
    | importB user name payload => exact Nat.le_succ _
    | workerS s' hws =>
      obtain ⟨i, rest, _, _, rfl⟩ := workerStart_eq hws
      exact Nat.le_refl _
    | workerC s' err hwc =>
      obtain ⟨i, _, rfl⟩ := workerComplete_eq hwc
      exact Nat.le_refl _
    | watchOk s' did wid hwo =>
      obtain ⟨_, _, rfl⟩ := watch_ok_eq hwo
      exact Nat.le_refl _
    | nextOk s' wid cs hno =>
      exact Nat.le_of_eq ((nextCall_changes_frame hno).2.2.2.1).symm
  · intro s hr
    have h := reachable_inv hr
    exact ⟨h.depsSorted, fun d hd => h.idLt hd⟩

/-- Claim C3 witness: the first two imports on a fresh Deployer return ids
0 and 1, in increasing order. -/
theorem import_ids_increasing_witness :
    (importBundle initState "user" "mysql" "doc1").2 = 0 ∧
    (importBundle st1 "user" "wordpress" "doc2").2 = 1 ∧
    initState.nextId ≤ st1.nextId :=
  ⟨(import_ids_increasing.1 initState "user" "mysql" "doc1").1,
   (import_ids_increasing.1 st1 "user" "wordpress" "doc2").1,
   import_ids_increasing.2.1 initState st1
     (Step.importB initState "user" "mysql" "doc1")⟩

theorem reach_st1 : Reachable st1 :=
  Reachable.step Reachable.init (Step.importB initState "user" "mysql" "doc1")

theorem reach_st2 : Reachable st2 :=
  Reachable.step reach_st1 (Step.importB st1 "user" "wordpress" "doc2")

theorem reach_st3 : Reachable st3 :=
  Reachable.step reach_st2 (Step.workerS st2 st3 rfl)

theorem reach_st4 : Reachable st4 :=
  Reachable.step reach_st3 (Step.workerC st3 st4 none rfl)

theorem reach_stW : Reachable stW :=
  Reachable.step reach_st4 (Step.watchOk st4 stW 0 0 rfl)

theorem lastStatus {s : DeployerState} (h : Inv s) {d : Deployment}
    (hd : d ∈ s.deployments) {c : Change}
    (hlast : d.changelog.getLast? = some c) : c.status = d.status := by
  have h1 : (d.changelog.map (fun c => c.status)).getLast? =
      some c.status := by
    rw [List.getLast?_map, hlast]
    rfl
  rw [h.logShape d hd] at h1
  cases hst : d.status <;> rw [hst] at h1 <;> injection h1 with h1 <;>
    exact h1.symm

theorem queuePosition_completed {s : DeployerState} (h : Inv s)
    {d : Deployment} (hd : d ∈ s.deployments)
    (hcomp : d.status = DStatus.completed) :
    queuePosition s d.id = none := by
  have hnc : ¬s.current = some d.id := by
    intro hc
    obtain ⟨di, hdi, hdii, hdis⟩ := h.curStarted d.id hc
    have he : d = di := h.idInj hd hdi hdii.symm
    rw [he, hdis] at hcomp
    cases hcomp
  have hnq : d.id ∉ s.queue := by
    intro hq
    obtain ⟨e, he, hei, hes⟩ := h.qmem hq
    have hed : e = d := h.idInj he hd hei
    rw [hed, hcomp] at hes
    cases hes
  rw [queuePosition, if_neg hnc, posIn_eq_none s.queue d.id hnq]

/-- Claim C6: `watch` fails with NotFound exactly when no deployment carries
the requested id; otherwise it returns the fresh watcher id (below which all
existing watcher ids lie, in any reachable state) and the successor state
differs from the old one only by the appended cursor-0 watcher and the
bumped watcher-id counter — deployments, queue, current slot and every
ChangeLog are untouched. -/
theorem watch_spec (s : DeployerState) (did : Nat) :
    ((∀ d, d ∈ s.deployments → d.id ≠ did) →
       watch s did = Except.error "deployment not found") ∧
    (∀ d, d ∈ s.deployments → d.id = did →
       watch s did = Except.ok
         ({ s with
             watchers := s.watchers ++
               [{ id := s.nextWatcherId, deploymentId := did,
                  cursor := 0, observed := [] }],
             nextWatcherId := s.nextWatcherId + 1 }, s.nextWatcherId)) ∧
    (Reachable s → ∀ w, w ∈ s.watchers → w.id < s.nextWatcherId) := by
  refine ⟨watch_err_eq, ?_, ?_⟩
  · intro d hd hdid
    have hfs : (s.deployments.find? (fun e => e.id == did)).isSome := by
      rw [List.find?_isSome]
      exact ⟨d, hd, by simp [hdid]⟩
    rw [watch, if_pos hfs]
  · intro hr w hw
    have h := reachable_inv hr
    have hm : w.id ∈ s.watchers.map (fun w => w.id) :=
      List.mem_map_of_mem _ hw
    rw [h.wIds] at hm
    exact List.mem_range.mp hm

/-- Claim C6 witness: on the concrete state `st1`, watching the unknown id 7
fails with NotFound, and watching the known id 0 returns watcher id 0. -/
theorem watch_spec_witness :
    watch st1 7 = Except.error "deployment not found" ∧
    (watch st1 0).toOption.map (fun p => p.2) = some 0 := by
  constructor
  · exact (watch_spec st1 7).1 (by decide)
  · rw [(watch_spec st1 0).2.1 (st1.deployments.getD 0 dfltDep)
      (by decide) (by decide)]
    rfl

/-- Claim C7: the status request is a pure read: it returns one entry per
known deployment (completed ones included), each entry being the
deployment's most recent Change with the queue position recomputed from the
live state; the entry's status and error are the deployment's current
status and error, and completed deployments carry no queue position.  The
snapshot never reads the watcher registry (so it perturbs no cursor and is
independent of it), and being a total function it cannot block or mutate
the state. -/
theorem status_snapshot (s : DeployerState) (hr : Reachable s) :
    (statusCall s).length = s.deployments.length ∧
    (∀ ws n, statusCall { s with watchers := ws, nextWatcherId := n } =
       statusCall s) ∧
    ∀ d, d ∈ s.deployments → ∃ c, d.changelog.getLast? = some c ∧
      renderChange s d = { c with queuePos := queuePosition s d.id } ∧
      renderChange s d ∈ statusCall s ∧
      (renderChange s d).deploymentId = d.id ∧
      (renderChange s d).status = d.status ∧
      (renderChange s d).error = d.error ∧
      (d.status = DStatus.completed →
        (renderChange s d).queuePos = none) := by
  have h := reachable_inv hr
  refine ⟨by rw [statusCall, List.length_map], fun ws n => rfl, ?_⟩
  intro d hd
  cases hlast : d.changelog.getLast? with
  | none =>
    exact absurd (List.getLast?_eq_none_iff.mp hlast) (log_nonempty h hd)
  | some c =>
    have hren : renderChange s d =
        { c with queuePos := queuePosition s d.id } := by
      rw [renderChange, hlast]
    refine ⟨c, rfl, hren, List.mem_map_of_mem (renderChange s) hd, ?_, ?_,
      ?_, ?_⟩
    · rw [hren]
      show c.deploymentId = d.id
      exact h.logIds d hd c (List.mem_of_getLast?_eq_some hlast)
    · rw [hren]
      show c.status = d.status
      exact lastStatus h hd hlast
    · rw [hren]
      show c.error = d.error
      exact h.lastErr d hd c hlast
    · intro hcomp
      rw [hren]
      show queuePosition s d.id = none
      exact queuePosition_completed h hd hcomp

/-- Claim C7 witness: instantiated at the concrete reachable state `st4`
(one completed and one scheduled deployment): the snapshot has one entry per
deployment and ignores the watcher registry. -/
theorem status_snapshot_witness :
    (statusCall st4).length = st4.deployments.length ∧
    statusCall { st4 with watchers := [dfltW], nextWatcherId := 9 } =
      statusCall st4 :=
  ⟨(status_snapshot st4 reach_st4).1,
   (status_snapshot st4 reach_st4).2.1 [dfltW] 9⟩

theorem countAhead_split {s : DeployerState} (i : Nat) :
    countAhead s i =
      s.deployments.countP (fun e =>
        (e.status == DStatus.scheduled) && decide (e.id < i)) +
      s.deployments.countP (fun e =>
        (e.status == DStatus.started) && decide (e.id < i)) := by
  rw [countAhead, ← List.countP_eq_length_filter,
    ← countP_disjoint _ _ s.deployments ?_]
  · apply List.countP_congr
    intro e he
    cases hlt : decide (e.id < i) <;>
      cases hs1 : (e.status == DStatus.scheduled) <;>
      cases hs2 : (e.status == DStatus.started) <;>
      simp [hlt, hs1, hs2]
  · intro e he hboth
    obtain ⟨h1, h2⟩ := hboth
    simp only [Bool.and_eq_true, beq_iff_eq] at h1 h2
    rw [h1.1] at h2
    cases h2.1

theorem countP_sched_lt {s : DeployerState} (h : Inv s) (i : Nat) :
    s.queue.countP (fun x => decide (x < i)) =
      s.deployments.countP (fun e =>
        (e.status == DStatus.scheduled) && decide (e.id < i)) := by
  rw [h.qeq, List.countP_map, List.countP_filter]
  apply List.countP_congr
  intro e he
  simp [Function.comp, Bool.and_comm]

theorem countP_started_none {s : DeployerState} (h : Inv s) (i : Nat)
    (hcur : s.current = none) :
    s.deployments.countP (fun e =>
      (e.status == DStatus.started) && decide (e.id < i)) = 0 := by
  rw [List.countP_eq_zero]
  intro e he hpe
  simp only [Bool.and_eq_true, beq_iff_eq, decide_eq_true_eq] at hpe
  have hc := h.startedCur e he hpe.1
  rw [hcur] at hc
  cases hc

theorem countP_started_some {s : DeployerState} (h : Inv s) {c : Nat}
    (hcur : s.current = some c) {i : Nat} (hci : c < i) :
    s.deployments.countP (fun e =>
      (e.status == DStatus.started) && decide (e.id < i)) = 1 := by
  obtain ⟨di, hdi, hdii, hdis⟩ := h.curStarted c hcur
  have hcongr : s.deployments.countP (fun e =>
        (e.status == DStatus.started) && decide (e.id < i)) =
      s.deployments.countP (fun e => e.status == DStatus.started) := by
    apply List.countP_congr
    intro e he
    simp only [Bool.and_eq_true, beq_iff_eq, decide_eq_true_eq]
    constructor
    · intro hp
      exact hp.1
    · intro hp
      refine ⟨hp, ?_⟩
      have hc := h.startedCur e he hp
      rw [hcur] at hc
      injection hc with hc
      rw [← hc]
      exact hci
  rw [hcongr, List.countP_eq_length_filter]
  have hle : (s.deployments.filter
      (fun e => e.status == DStatus.started)).length ≤ 1 := by
    apply length_le_one_of_const_key (fun d => d.id) c
    · exact h.nodupIds.sublist ((List.filter_sublist _).map _)
    · intro x hx
      have hx' := List.mem_filter.mp hx
      have hc := h.startedCur x hx'.1 (by simpa using hx'.2)
      rw [hcur] at hc
      injection hc with hc
      exact hc.symm
  have hpos : 0 < (s.deployments.filter
      (fun e => e.status == DStatus.started)).length :=
    List.length_pos_of_mem (List.mem_filter.mpr ⟨hdi, by simp [hdis]⟩)
  omega

/-- Claim C5: in every reachable state, the queue position reported for a
pending deployment (in Status entries, and via the `queuePosition` read
function used for every rendered Change) equals the number of deployments
enqueued before it that are still `scheduled` or `started`; the executing
deployment reports position 0.  Positions are recomputed from the live
queue at every read by construction (`queuePosition` is a function of the
current state only). -/
theorem queue_position_reported (s : DeployerState) (hr : Reachable s) :
    ∀ d, d ∈ s.deployments →
      (d.status = DStatus.scheduled ∨ d.status = DStatus.started) →
      queuePosition s d.id = some (countAhead s d.id) ∧
      (s.current = some d.id → queuePosition s d.id = some 0) ∧
      renderChange s d ∈ statusCall s ∧
      (renderChange s d).queuePos = some (countAhead s d.id) := by
  have h := reachable_inv hr
  intro d hd hst
  have hq : queuePosition s d.id = some (countAhead s d.id) := by
    rcases hst with hsch | hsta
    · -- scheduled: position = index in the FIFO, shifted while the worker
      -- is busy
      have hqmem : d.id ∈ s.queue := h.schedq hd hsch
      have hcurne : ¬s.current = some d.id := by
        intro hc
        obtain ⟨di, hdi, hdii, hdis⟩ := h.curStarted d.id hc
        have he : d = di := h.idInj hd hdi hdii.symm
        rw [he, hdis] at hsch
        cases hsch
      have hpos := posIn_sorted s.queue h.qSorted d.id hqmem
      have hqp : queuePosition s d.id =
          some (s.queue.countP (fun x => decide (x < d.id)) +
            (if s.current.isSome then 1 else 0)) := by
        rw [queuePosition, if_neg hcurne, hpos]
      rw [hqp, countAhead_split, ← countP_sched_lt h]
      cases hcur : s.current with
      | none =>
        rw [countP_started_none h d.id hcur]
        rfl
      | some c =>
        have hci : c < d.id := h.curLtQ c hcur d.id hqmem
        rw [countP_started_some h hcur hci]
        rfl
    · -- started: position 0, nothing pending is ahead of the worker
      have hcur : s.current = some d.id := h.startedCur d hd hsta
      have hq0 : queuePosition s d.id = some 0 := by
        rw [queuePosition, if_pos hcur]
      have hca : countAhead s d.id = 0 := by
        rw [countAhead]
        have hnil : s.deployments.filter (fun e =>
            decide (e.id < d.id) &&
            (e.status == DStatus.scheduled ||
             e.status == DStatus.started)) = [] := by
          rw [List.filter_eq_nil_iff]
          intro e he hpe
          simp only [Bool.and_eq_true, decide_eq_true_eq, Bool.or_eq_true,
            beq_iff_eq] at hpe
          obtain ⟨hlt, hsor⟩ := hpe
          rcases hsor with hes | hest
          · have hm := h.schedq he hes
            have := h.curLtQ d.id hcur e.id hm
            omega
          · have hc := h.startedCur e he hest
            rw [hcur] at hc
            injection hc with hc
            omega
        rw [hnil]
        rfl
      rw [hq0, hca]
  refine ⟨hq, fun hc => by rw [queuePosition, if_pos hc], ?_, ?_⟩
  · exact List.mem_map_of_mem (renderChange s) hd
  · cases hlast : d.changelog.getLast? with
    | none =>
      exact absurd (List.getLast?_eq_none_iff.mp hlast) (log_nonempty h hd)
    | some c =>
      rw [renderChange, hlast]
      show queuePosition s d.id = some (countAhead s d.id)
      exact hq

/-- Claim C5 witness: at the concrete reachable state `st3` (deployment 0
executing, deployment 1 queued behind it), the scheduled deployment 1
reports position 1, which is the count of live deployments ahead of it. -/
theorem queue_position_reported_witness :
    queuePosition st3 (st3.deployments.getD 1 dfltDep).id =
      some (countAhead st3 (st3.deployments.getD 1 dfltDep).id) :=
  (queue_position_reported st3 reach_st3
    (st3.deployments.getD 1 dfltDep) (by decide) (Or.inl (by decide))).1

theorem find_watcher {s : DeployerState} (h : Inv s) {w : Watcher}
    (hw : w ∈ s.watchers) :
    s.watchers.find? (fun x => x.id == w.id) = some w :=
  find_key_of_mem (fun x => x.id) s.watchers h.nodupWIds w hw

theorem find_dep {s : DeployerState} (h : Inv s) {d : Deployment}
    (hd : d ∈ s.deployments) {j : Nat} (hj : d.id = j) :
    s.deployments.find? (fun x => x.id == j) = some d := by
  have hf : s.deployments.find? (fun x => x.id == d.id) = some d :=
    find_key_of_mem (fun x => x.id) s.deployments h.nodupIds d hd
  rw [hj] at hf
  exact hf

theorem find_advance {s : DeployerState} (h : Inv s) {w : Watcher}
    (hw : w ∈ s.watchers) (len : Nat) (cs : List Change) :
    (advanceWatcher s w.id len cs).watchers.find? (fun x => x.id == w.id) =
      some { w with cursor := len, observed := w.observed ++ cs } := by
  have hupd := find_key_map_update (fun x : Watcher => x.id)
    (fun x => { x with cursor := len, observed := x.observed ++ cs })
    (fun x => rfl) w.id s.watchers
  rw [find_watcher h hw] at hupd
  exact hupd

theorem nextCall_advance_eq {s : DeployerState} (h : Inv s) {w : Watcher}
    {d : Deployment} (hw : w ∈ s.watchers) (hd : d ∈ s.deployments)
    (hdid : d.id = w.deploymentId)
    (hlt : w.cursor < d.changelog.length) :
    nextCall s w.id = NextResult.changes
      (advanceWatcher s w.id d.changelog.length (d.changelog.drop w.cursor))
      (d.changelog.drop w.cursor) := by
  simp only [nextCall, find_watcher h hw, find_dep h hd hdid]
  rw [if_pos hlt]

theorem nextCall_terminal_eq {s : DeployerState} (h : Inv s) {w : Watcher}
    {d : Deployment} (hw : w ∈ s.watchers) (hd : d ∈ s.deployments)
    (hdid : d.id = w.deploymentId) (hcomp : d.status = DStatus.completed)
    (hcur : d.changelog.length ≤ w.cursor) {c : Change}
    (hlast : d.changelog.getLast? = some c) :
    nextCall s w.id = NextResult.changes s [c] := by
  simp only [nextCall, find_watcher h hw, find_dep h hd hdid]
  rw [if_neg (Nat.not_lt.mpr hcur), if_pos hcomp, hlast]

theorem completed_log_length {s : DeployerState} (h : Inv s)
    {d : Deployment} (hd : d ∈ s.deployments)
    (hcomp : d.status = DStatus.completed) : d.changelog.length = 3 := by
  have hsh := h.logShape d hd
  rw [hcomp] at hsh
  have hlen := congrArg List.length hsh
  rw [List.length_map] at hlen
  exact hlen

/-- Claim C8: in every reachable state every watcher's deliveries so far are
exactly the first `cursor` entries of its deployment's ChangeLog — strict
append order with no gaps and no duplicates (terminal repeats excluded by
the explicit repeat rule).  Moreover once the deployment is `completed`, a
single further `next` call leaves the watcher having observed the full
`scheduled, started, completed` sequence, whatever interleaving produced
the state — so every watcher registered before the start eventually
observes the whole sequence. -/
theorem watcher_observes_in_order (s : DeployerState) (hr : Reachable s) :
    ∀ w, w ∈ s.watchers → ∀ d, d ∈ s.deployments →
      d.id = w.deploymentId →
      w.observed = d.changelog.take w.cursor ∧
      (d.status = DStatus.completed →
        ∃ s2 cs, nextCall s w.id = NextResult.changes s2 cs ∧
          ∃ w2, s2.watchers.find? (fun x => x.id == w.id) = some w2 ∧
            w2.observed = d.changelog ∧
            w2.observed.map (fun c => c.status) =
              [DStatus.scheduled, DStatus.started, DStatus.completed]) := by
  have h := reachable_inv hr
  intro w hw d hd hdid
  obtain ⟨hc, ho⟩ := h.wCur w hw d hd hdid
  refine ⟨ho, ?_⟩
  intro hcomp
  have hsh := h.logShape d hd
  rw [hcomp] at hsh
  by_cases hlt : w.cursor < d.changelog.length
  · refine ⟨_, _, nextCall_advance_eq h hw hd hdid hlt, _,
      find_advance h hw d.changelog.length (d.changelog.drop w.cursor), ?_, ?_⟩
    · show w.observed ++ d.changelog.drop w.cursor = d.changelog
      rw [ho, List.take_append_drop]
    · show (w.observed ++ d.changelog.drop w.cursor).map
        (fun c => c.status) = _
      rw [ho, List.take_append_drop, hsh]
      rfl
  · have hcur_eq : w.cursor = d.changelog.length :=
      Nat.le_antisymm hc (Nat.le_of_not_lt hlt)
    cases hlast : d.changelog.getLast? with
    | none =>
      exact absurd (List.getLast?_eq_none_iff.mp hlast) (log_nonempty h hd)
    | some c =>
      refine ⟨s, [c], nextCall_terminal_eq h hw hd hdid hcomp
        (Nat.le_of_not_lt hlt) hlast, w, find_watcher h hw, ?_, ?_⟩
      · rw [ho, hcur_eq, List.take_length]
      · rw [ho, hcur_eq, List.take_length, hsh]
        rfl

/-- Claim C8 witness: at the concrete reachable state `stW` the fresh
watcher 0 on the completed deployment 0 has observed exactly the log prefix
below its cursor. -/
theorem watcher_observes_in_order_witness :
    (stW.watchers.getD 0 dfltW).observed =
      (stW.deployments.getD 0 dfltDep).changelog.take
        (stW.watchers.getD 0 dfltW).cursor :=
  (watcher_observes_in_order stW reach_stW
    (stW.watchers.getD 0 dfltW) (by decide)
    (stW.deployments.getD 0 dfltDep) (by decide) (by decide)).1

/-- Claim C4 counterexample: on the concrete reachable state `stW`,
deployment 0 is already `completed` and watcher 0 is fresh (cursor 0); its
first `next` call answers immediately but returns the whole three-entry
ChangeLog `scheduled, started, completed`, not a single-element list
containing only the terminal Change, refuting the claim as stated. -/
theorem next_on_completed_counterexample :
    (stW.deployments.map (fun d => d.status)) =
      [DStatus.completed, DStatus.scheduled] ∧
    (stW.watchers.map (fun w => (w.deploymentId, w.cursor))) = [(0, 0)] ∧
    isImmediate (nextCall stW 0) = true ∧
    (changesOf (nextCall stW 0)).map (fun c => c.status) =
      [DStatus.scheduled, DStatus.started, DStatus.completed] ∧
    ¬(changesOf (nextCall stW 0)).length = 1 := by
  refine ⟨rfl, rfl, rfl, rfl, by decide⟩

/-- Claim C4 as amended: when the bound deployment is `completed`, `next`
answers immediately with a non-empty list of all its unseen Changes ending
in the terminal `completed` Change — which is the single-element terminal
list exactly when the watcher has already consumed the whole log — and
every subsequent `next` call on that watcher returns precisely the
single-element terminal list again without changing the state; in
particular a watcher created after completion observes at least the
terminal Change on its first call. -/
theorem next_on_completed (s : DeployerState) (hr : Reachable s) :
    ∀ w, w ∈ s.watchers → ∀ d, d ∈ s.deployments →
      d.id = w.deploymentId → d.status = DStatus.completed →
      ∃ s2 cs, nextCall s w.id = NextResult.changes s2 cs ∧
        ¬cs = [] ∧ cs.getLast? = d.changelog.getLast? ∧
        (d.changelog.length ≤ w.cursor →
          ∃ c, d.changelog.getLast? = some c ∧ cs = [c]) ∧
        (∀ s3 cs2, nextCall s2 w.id = NextResult.changes s3 cs2 →
          ∃ c, d.changelog.getLast? = some c ∧ cs2 = [c] ∧ s3 = s2) := by
  have h := reachable_inv hr
  intro w hw d hd hdid hcomp
  cases hlast : d.changelog.getLast? with
  | none =>
    exact absurd (List.getLast?_eq_none_iff.mp hlast) (log_nonempty h hd)
  | some c =>
    by_cases hlt : w.cursor < d.changelog.length
    · have hnc := nextCall_advance_eq h hw hd hdid hlt
      have h2 : Inv (advanceWatcher s w.id d.changelog.length
          (d.changelog.drop w.cursor)) := inv_next h hnc
      have hfw2 := find_advance h hw d.changelog.length
        (d.changelog.drop w.cursor)
      have hw2mem := List.mem_of_find?_eq_some hfw2
      refine ⟨_, _, hnc, ?_, ?_, ?_, ?_⟩
      · intro hnil
        rw [List.drop_eq_nil_iff] at hnil
        omega
      · exact (getLast?_drop_of_lt d.changelog w.cursor hlt).trans hlast
      · intro hle
        exact absurd (Nat.lt_of_lt_of_le hlt hle) (Nat.lt_irrefl _)
      · intro s3 cs2 hnc2
        have hterm : nextCall (advanceWatcher s w.id d.changelog.length
              (d.changelog.drop w.cursor)) w.id =
            NextResult.changes (advanceWatcher s w.id d.changelog.length
              (d.changelog.drop w.cursor)) [c] :=
          nextCall_terminal_eq h2 hw2mem hd hdid hcomp (Nat.le_refl _) hlast
        rw [hterm] at hnc2
        injection hnc2 with h1 h2'
        exact ⟨c, rfl, h2'.symm, h1.symm⟩
    · have hnc := nextCall_terminal_eq h hw hd hdid hcomp
        (Nat.le_of_not_lt hlt) hlast
      refine ⟨s, [c], hnc, by simp, rfl, fun _ => ⟨c, rfl, rfl⟩, ?_⟩
      intro s3 cs2 hnc2
      rw [hnc] at hnc2
      injection hnc2 with h1 h2'
      exact ⟨c, rfl, h2'.symm, h1.symm⟩

/-- Claim C4 (amended) witness: applied at the concrete reachable state
`stW`, the fresh watcher 0 on the completed deployment 0 gets an immediate
answer from `next`. -/
theorem next_on_completed_witness :
    isImmediate (nextCall stW (stW.watchers.getD 0 dfltW).id) = true := by
  obtain ⟨s2, cs, hnc, -, -, -, -⟩ :=
    next_on_completed stW reach_stW
      (stW.watchers.getD 0 dfltW) (by decide)
      (stW.deployments.getD 0 dfltDep) (by decide) (by decide) (by decide)
  rw [hnc]
  rfl

/-- Claim C9 counterexample: mixin selection is not a function of the
configuration flags alone.  With sandbox, staging and builtin-server all
false — precisely the flags of `test_go_backend`, which additionally fakes
a juju-core agent file — the first mixin is `GoMixin`, not `PythonMixin`,
and the selection differs from the legacy environment with identical
flags.  (Configurations are written ⟨sandbox, staging, builtin-server⟩.) -/
theorem backend_mixins_counterexample :
    selectMixins false ⟨false, false, false⟩ =
      [MixinName.GoMixin, MixinName.GuiMixin,
       MixinName.HaproxyApacheMixin] ∧
    ¬selectMixins false ⟨false, false, false⟩ =
      [MixinName.PythonMixin, MixinName.GuiMixin,
       MixinName.HaproxyApacheMixin] ∧
    ¬selectMixins false ⟨false, false, false⟩ =
      selectMixins true ⟨false, false, false⟩ := by
  refine ⟨rfl, by decide, by decide⟩

/-- Claim C9 as amended: Backend construction selects its mixins from the
configuration flags together with the juju-core agent-file detection.
Under a legacy (pyjuju) environment with builtin-server false: staging
gives (Improv, Gui, HaproxyApache) with 'zookeeper' added to the debs;
sandbox (staging false) starts with SandboxMixin; both false start with
PythonMixin.  Under juju-core (an agent file present, as in
`test_go_backend`) the first mixin is GoMixin and 'python-yaml' is added.
In every such configuration the debs include apache2, curl, haproxy and
openssl, the repositories are empty and the upstart scripts are exactly
haproxy.conf. -/
theorem backend_mixins_selection :
    (∀ cfg : BackendConfig, cfg.builtinServer = false →
       (cfg.staging = true →
          selectMixins true cfg =
            [MixinName.ImprovMixin, MixinName.GuiMixin,
             MixinName.HaproxyApacheMixin] ∧
          "zookeeper" ∈ backendDebs true cfg) ∧
       (cfg.staging = false → cfg.sandbox = true →
          selectMixins true cfg =
            [MixinName.SandboxMixin, MixinName.GuiMixin,
             MixinName.HaproxyApacheMixin]) ∧
       (cfg.staging = false → cfg.sandbox = false →
          selectMixins true cfg =
            [MixinName.PythonMixin, MixinName.GuiMixin,
             MixinName.HaproxyApacheMixin]) ∧
       (selectMixins false cfg =
          [MixinName.GoMixin, MixinName.GuiMixin,
           MixinName.HaproxyApacheMixin] ∧
        "python-yaml" ∈ backendDebs false cfg)) ∧
    (∀ (legacy : Bool) (cfg : BackendConfig), cfg.builtinServer = false →
       "apache2" ∈ backendDebs legacy cfg ∧
       "curl" ∈ backendDebs legacy cfg ∧
       "haproxy" ∈ backendDebs legacy cfg ∧
       "openssl" ∈ backendDebs legacy cfg ∧
       backendRepositories legacy cfg = [] ∧
       backendUpstartScripts legacy cfg = ["haproxy.conf"]) := by
  constructor
  · intro cfg hbs
    obtain ⟨sb, st, bs⟩ := cfg
    cases bs with
    | true => cases hbs
    | false =>
      cases sb with
      | false =>
        cases st with
        | false =>
          refine ⟨?_, ?_, fun _ _ => rfl, rfl, by decide⟩
          · intro h1
            cases h1
          · intro h1 h2
            cases h2
        | true =>
          refine ⟨fun _ => ⟨rfl, by decide⟩, ?_, ?_, rfl, by decide⟩
          · intro h1
            cases h1
          · intro h1
            cases h1
      | true =>
        cases st with
        | false =>
          refine ⟨?_, fun _ _ => rfl, ?_, rfl, by decide⟩
          · intro h1
            cases h1
          · intro h1 h2
            cases h2
        | true =>
          refine ⟨fun _ => ⟨rfl, by decide⟩, ?_, ?_, rfl, by decide⟩
          · intro h1
            cases h1
          · intro h1
            cases h1
  · intro legacy cfg hbs
    obtain ⟨sb, st, bs⟩ := cfg
    cases bs with
    | true => cases hbs
    | false =>
      cases legacy <;> cases sb <;> cases st <;>
        exact ⟨by decide, by decide, by decide, by decide, rfl, rfl⟩

/-- Claim C9 (amended) witness: the staging configuration of
`test_staging_backend` yields the Improv/Gui/HaproxyApache stack. -/
theorem backend_mixins_selection_witness :
    selectMixins true ⟨false, true, false⟩ =
      [MixinName.ImprovMixin, MixinName.GuiMixin,
       MixinName.HaproxyApacheMixin] :=
  ((backend_mixins_selection.1 ⟨false, true, false⟩ rfl).1 rfl).1

/-- Claim C10: `Backend.different k` is true exactly when the value of the
key differs between the current and the previous configuration; with
identical configurations it is false for every key, and when only the
sandbox flag differs it is true for sandbox and false for staging, as in
`TestBackendUtils`.  (Configurations are written
⟨sandbox, staging, builtin-server⟩.) -/
theorem backend_different_spec :
    (∀ (cfg prev : BackendConfig) (legacy : Bool) (k : ConfigKey),
       (Backend.mk cfg prev legacy).different k = true ↔
         ¬getKey cfg k = getKey prev k) ∧
    (∀ (cfg : BackendConfig) (legacy : Bool) (k : ConfigKey),
       (Backend.mk cfg cfg legacy).different k = false) ∧
    ((Backend.mk ⟨false, false, false⟩ ⟨true, false, false⟩
        true).different ConfigKey.sandbox = true ∧
     (Backend.mk ⟨false, false, false⟩ ⟨true, false, false⟩
        true).different ConfigKey.staging = false) := by
  refine ⟨?_, ?_, by decide, by decide⟩
  · intro cfg prev legacy k
    rw [Backend.different]
    exact bne_iff_ne
  · intro cfg legacy k
    rw [Backend.different]
    exact bne_self_eq_false _

/-- Claim C10 witness: the differing-sandbox configuration of
`test_different_config` reports the sandbox key as changed. -/
theorem backend_different_spec_witness :
    (Backend.mk ⟨false, false, false⟩ ⟨true, false, false⟩
        true).different ConfigKey.sandbox = true :=
  (backend_different_spec.1 _ _ _ _).mpr (by decide)

end JujuGuiCharm
